import Mathlib

/-!
Verification of the SAMRAI invalidation-handle protocol
(`hier::BoxLevelHandle`) and the filtered iteration view
(`hier::RealBoxConstIterator`), as declared in
`src/source/SAMRAI/hier/BoxLevelHandle.h` and
`src/source/SAMRAI/hier/RealBoxConstIterator.h`.

The repository ships only the class declarations (headers); the member
function bodies live in `.C`/`.I` files that are not part of this
snapshot.  Each operation is therefore modelled from the header's own
doc comments and the specification, as noted on each definition.
-/

namespace SAMRAI
namespace hier

/-- A `BoxLevel` is an external collaborator of the handle; the handle
only stores a pointer to it (`const BoxLevel* d_box_level`).  We model a
`BoxLevel` by an opaque identity. -/
abbrev BoxLevel : Type := Nat

/-- State of a `BoxLevelHandle`.  The only data member in the header is
`const BoxLevel* d_box_level`, the pointer to the attached `BoxLevel`;
a null pointer is modelled by `none`. -/
structure BoxLevelHandle where
  d_box_level : Option BoxLevel
deriving DecidableEq

/-- Modelled from the spec: the private constructor
`BoxLevelHandle(const BoxLevel* box_level)` (body not in the snapshot).
Per the header, it is the only constructor, called only by `BoxLevel`,
and attaches the handle to `box_level`; per the spec,
`create(source)` yields a new handle with `isAttached() == true`. -/
def BoxLevelHandle.mkAttached (box_level : BoxLevel) : BoxLevelHandle :=
  ⟨some box_level⟩

/-- Modelled from the spec: `bool isAttached() const` (body not in the
snapshot).  "Whether the BoxLevelHandle is still attached to its
BoxLevel": the attached/detached flag is implicit in the back-reference
being present or cleared. -/
def BoxLevelHandle.isAttached (h : BoxLevelHandle) : Bool :=
  h.d_box_level.isSome

/-- Modelled from the spec: `void detachMyBoxLevel()` (body not in the
snapshot).  "Detach the BoxLevel": clears the back-reference
`d_box_level`. -/
def BoxLevelHandle.detachMyBoxLevel (_h : BoxLevelHandle) : BoxLevelHandle :=
  ⟨none⟩

/-- Modelled from the spec: `const BoxLevel& getBoxLevel() const` (body
not in the snapshot).  "Return the BoxLevel attached to this handle. If
there is no attached BoxLevel (isAttached() returns false), an
assertion is thrown."  The fatal assertion path is modelled as
`Except.error`. -/
def BoxLevelHandle.getBoxLevel (h : BoxLevelHandle) : Except Unit BoxLevel :=
  match h.d_box_level with
  | some b => Except.ok b
  | none => Except.error ()

/-- Modelled from the spec: the destructor `~BoxLevelHandle()` (body not
in the snapshot).  "Destructor detaches the handle from its BoxLevel,
if it is still attached."  This is its effect on the handle state just
before storage is released. -/
def BoxLevelHandle.destructorDetach (h : BoxLevelHandle) : BoxLevelHandle :=
  if h.isAttached then h.detachMyBoxLevel else h

/-- The operations of the public/friend surface of `BoxLevelHandle` that
can be invoked on an existing handle.  `isAttached` and `getBoxLevel`
are `const` member functions, so as operations on the state they leave
it unchanged; `detach` is `detachMyBoxLevel`, and `destroy` is the
state effect of the destructor. -/
inductive HandleOp where
  | detach
  | queryIsAttached
  | queryGetBoxLevel
  | destroy
deriving DecidableEq

/-- Effect of one operation on the handle state. -/
def applyOp (op : HandleOp) (h : BoxLevelHandle) : BoxLevelHandle :=
  match op with
  | HandleOp.detach => h.detachMyBoxLevel
  | HandleOp.queryIsAttached => h
  | HandleOp.queryGetBoxLevel => h
  | HandleOp.destroy => h.destructorDetach

/-- Effect of a sequence of operations on the handle state. -/
def applyOps (ops : List HandleOp) (h : BoxLevelHandle) : BoxLevelHandle :=
  ops.foldl (fun s op => applyOp op s) h

/-- A detached handle stays detached under every operation. -/
lemma applyOp_detached (op : HandleOp) :
    applyOp op ⟨none⟩ = ⟨none⟩ := by
  cases op <;> rfl

/-- A detached handle stays detached under every operation sequence. -/
lemma applyOps_detached (ops : List HandleOp) :
    applyOps ops ⟨none⟩ = ⟨none⟩ := by
  induction ops with
  | nil => rfl
  | cons op rest ih =>
      show applyOps rest (applyOp op ⟨none⟩) = ⟨none⟩
      rw [applyOp_detached]
      exact ih

/-- Every state reachable from `mkAttached b` is either still attached
to `b` or detached. -/
lemma applyOps_mkAttached (b : BoxLevel) (ops : List HandleOp) :
    applyOps ops (BoxLevelHandle.mkAttached b) = ⟨some b⟩ ∨
    applyOps ops (BoxLevelHandle.mkAttached b) = ⟨none⟩ := by
  induction ops with
  | nil => exact Or.inl rfl
  | cons op rest ih =>
      show applyOps rest (applyOp op ⟨some b⟩) = ⟨some b⟩ ∨
        applyOps rest (applyOp op ⟨some b⟩) = ⟨none⟩
      cases op with
      | detach =>
          exact Or.inr (applyOps_detached rest)
      | queryIsAttached => exact ih
      | queryGetBoxLevel => exact ih
      | destroy =>
          exact Or.inr (applyOps_detached rest)

/-- A `Box` is an external collaborator of the iterator; the only
feature the iterator queries is the classification
`isPeriodicImage()` (periodic images are the "derived" entries).  We
keep an identity so distinct entries are distinguishable. -/
structure Box where
  ident : Nat
  periodic_flag : Bool
deriving DecidableEq

/-- The classification predicate `Box::isPeriodicImage()` of the
external `Box` collaborator. -/
def Box.isPeriodicImage (b : Box) : Bool :=
  b.periodic_flag

/-- A `BoxContainer` is an external collaborator: a container of
`Box`es with a stable enumeration order, modelled by the list of its
entries in that order. -/
structure BoxContainer where
  boxes : List Box
deriving DecidableEq

/-- State of a `RealBoxConstIterator`.  The data members in the header
are `const BoxContainer* d_mapped_boxes` (the container being iterated
through) and `BoxContainer::ConstIterator d_ni` (the underlying
iterator), modelled by the container value and the position in its full
enumeration. -/
structure RealBoxConstIterator where
  d_mapped_boxes : BoxContainer
  d_ni : Nat
deriving DecidableEq

/-- The skipping loop shared by the constructor and `operator ++`:
starting from position `i` whose suffix of the enumeration is the first
argument, step the underlying position while it is not at the end and
denotes a periodic image. -/
def advanceWhilePeriodic : List Box → Nat → Nat
  | [], i => i
  | b :: rest, i =>
      if b.isPeriodicImage then advanceWhilePeriodic rest (i + 1) else i

/-- Position of the first non-periodic entry of `l` at index `i` or
later (the end position if there is none). -/
def firstRealFrom (l : List Box) (i : Nat) : Nat :=
  advanceWhilePeriodic (l.drop i) i

/-- Modelled from the spec: the constructor
`RealBoxConstIterator(const BoxContainer& mapped_boxes)` (body not in
the snapshot).  It binds to `mapped_boxes`; the initial position is the
first non-derived (non-periodic-image) entry, or the exhausted state if
none exists. -/
def RealBoxConstIterator.construct
    (mapped_boxes : BoxContainer) : RealBoxConstIterator :=
  ⟨mapped_boxes, firstRealFrom mapped_boxes.boxes 0⟩

/-- Modelled from the spec: pre-increment `operator ++ ()` (body not in
the snapshot).  It moves to the next non-derived entry, or to the
exhausted state; the post-increment form performs the same state
change, returning the saved prior state. -/
def RealBoxConstIterator.inc (it : RealBoxConstIterator) : RealBoxConstIterator :=
  ⟨it.d_mapped_boxes, firstRealFrom it.d_mapped_boxes.boxes (it.d_ni + 1)⟩

/-- Modelled from the spec: `bool isValid() const` (body not in the
snapshot).  "Whether the iterator can be dereferenced.  When the
iterator reaches its end, this returns false." -/
def RealBoxConstIterator.isValid (it : RealBoxConstIterator) : Bool :=
  decide (it.d_ni < it.d_mapped_boxes.boxes.length)

/-- Modelled from the spec: the dereference operators `operator *` and
`operator ->` (bodies not in the snapshot).  Dereferencing is defined
only while the position denotes an existing entry; the out-of-range
case (a caller contract violation) is modelled by `none`. -/
def RealBoxConstIterator.deref (it : RealBoxConstIterator) : Option Box :=
  it.d_mapped_boxes.boxes[it.d_ni]?

/-- Modelled from the spec: the assignment `operator = ` (body not in
the snapshot): the left iterator takes the right iterator's container
reference and underlying position. -/
def RealBoxConstIterator.assign
    (_self r : RealBoxConstIterator) : RealBoxConstIterator :=
  ⟨r.d_mapped_boxes, r.d_ni⟩

/-- Modelled from the spec: the equality comparison `operator == `
(body not in the snapshot): two cursors compare equal iff they
reference the same container and the same underlying position. -/
def RealBoxConstIterator.eqOp (it r : RealBoxConstIterator) : Bool :=
  decide (it.d_mapped_boxes = r.d_mapped_boxes) && decide (it.d_ni = r.d_ni)

/-- Apply `n` pre-increments to an iterator. -/
def advanceN : Nat → RealBoxConstIterator → RealBoxConstIterator
  | 0, it => it
  | Nat.succ m, it => advanceN m it.inc

/-- One step of the traversal loop
`for (RealBoxConstIterator ni(c); ni.isValid(); ++ni) yield *ni`,
with fuel to bound the recursion; dereferencing succeeds exactly while
the iterator is valid. -/
def traverseAux : Nat → RealBoxConstIterator → List Box
  | 0, _ => []
  | Nat.succ fuel, it =>
      match it.deref with
      | none => []
      | some b => b :: traverseAux fuel it.inc

/-- The full traversal of a container through a fresh
`RealBoxConstIterator` (enough fuel for every entry). -/
def RealBoxConstIterator.traverse (mapped_boxes : BoxContainer) : List Box :=
  traverseAux (mapped_boxes.boxes.length + 1)
    (RealBoxConstIterator.construct mapped_boxes)

/-- Number of leading periodic images of a list. -/
def skipPeriodicCount : List Box → Nat
  | [] => 0
  | b :: rest =>
      if b.isPeriodicImage then skipPeriodicCount rest + 1 else 0

/-- The skipping loop lands `skipPeriodicCount` positions further. -/
lemma advanceWhilePeriodic_eq (l : List Box) :
    ∀ i, advanceWhilePeriodic l i = i + skipPeriodicCount l := by
  induction l with
  | nil => intro i; simp [advanceWhilePeriodic, skipPeriodicCount]
  | cons b rest ih =>
      intro i
      by_cases hb : b.isPeriodicImage
      · simp only [advanceWhilePeriodic, skipPeriodicCount, hb, if_true]
        rw [ih]
        omega
      · simp [advanceWhilePeriodic, skipPeriodicCount, hb]

/-- `firstRealFrom` in terms of `skipPeriodicCount` of the suffix. -/
lemma firstRealFrom_eq (l : List Box) (i : Nat) :
    firstRealFrom l i = i + skipPeriodicCount (l.drop i) := by
  unfold firstRealFrom
  exact advanceWhilePeriodic_eq (l.drop i) i

/-- Dropping one more element of a list, given its current suffix. -/
lemma drop_succ_of_drop_cons {l : List Box} {b : Box} {m : List Box}
    {i : Nat} (h : l.drop i = b :: m) : l.drop (i + 1) = m := by
  have h2 := List.drop_drop 1 i l
  rw [h] at h2
  exact h2.symm

/-- A nonempty suffix at index `i` means `i` is in range. -/
lemma lt_length_of_drop_cons {l : List Box} {b : Box} {m : List Box}
    {i : Nat} (h : l.drop i = b :: m) : i < l.length := by
  by_contra hc
  push_neg at hc
  rw [List.drop_eq_nil_of_le hc] at h
  exact List.noConfusion h

/-- The element at the head of the suffix at index `i` is the element
at index `i`. -/
lemma getElem?_of_drop_cons {l : List Box} {b : Box} {m : List Box}
    {i : Nat} (h : l.drop i = b :: m) : l[i]? = some b := by
  have h0 := List.getElem?_drop l i 0
  rw [h] at h0
  simpa using h0.symm

/-- An empty suffix at index `i` means the element lookup fails. -/
lemma getElem?_of_drop_nil {l : List Box} {i : Nat}
    (h : l.drop i = []) : l[i]? = none :=
  List.getElem?_eq_none (List.drop_eq_nil_iff.mp h)

/-- Unfolding the constructor through `firstRealFrom_eq`: it starts at
the normalised position over the whole enumeration. -/
lemma construct_eq (c : BoxContainer) :
    RealBoxConstIterator.construct c = ⟨c, 0 + skipPeriodicCount c.boxes⟩ := by
  simp [RealBoxConstIterator.construct, firstRealFrom_eq]

/-- Unfolding one increment through `firstRealFrom_eq`: it lands at the
normalised position over the suffix one past the current position. -/
lemma inc_eq (l : List Box) (p : Nat) :
    (⟨⟨l⟩, p⟩ : RealBoxConstIterator).inc =
      ⟨⟨l⟩, (p + 1) + skipPeriodicCount (l.drop (p + 1))⟩ := by
  simp [RealBoxConstIterator.inc, firstRealFrom_eq]

/-- Advancing never changes the container being iterated through. -/
lemma advanceN_container (n : Nat) :
    ∀ it : RealBoxConstIterator,
      (advanceN n it).d_mapped_boxes = it.d_mapped_boxes := by
  induction n with
  | zero => intro it; rfl
  | succ k ih => intro it; exact (ih it.inc).trans rfl

/-- Workhorse for traversal: from a position normalised by the skipping
loop over the remaining suffix `m`, the traversal loop yields exactly
the non-periodic entries of `m` in order. -/
lemma traverseAux_filter (m : List Box) :
    ∀ (l : List Box) (i fuel : Nat), l.drop i = m → m.length < fuel →
      traverseAux fuel ⟨⟨l⟩, i + skipPeriodicCount m⟩ =
        m.filter (fun b => !b.isPeriodicImage) := by
  induction m with
  | nil =>
      intro l i fuel hdrop hfuel
      cases fuel with
      | zero => omega
      | succ f =>
          have hnone : l[i]? = none := getElem?_of_drop_nil hdrop
          simp [traverseAux, RealBoxConstIterator.deref,
            skipPeriodicCount, hnone]
  | cons b rest ih =>
      intro l i fuel hdrop hfuel
      have hdrop1 : l.drop (i + 1) = rest := drop_succ_of_drop_cons hdrop
      by_cases hb : b.isPeriodicImage
      · have hskip :
            skipPeriodicCount (b :: rest) = skipPeriodicCount rest + 1 := by
          simp [skipPeriodicCount, hb]
        have harith :
            i + (skipPeriodicCount rest + 1) =
              (i + 1) + skipPeriodicCount rest := by omega
        have hf : rest.length < fuel := by
          simp only [List.length_cons] at hfuel
          omega
        rw [hskip, harith, ih l (i + 1) fuel hdrop1 hf]
        simp [List.filter_cons, hb]
      · have hskip : skipPeriodicCount (b :: rest) = 0 := by
          simp [skipPeriodicCount, hb]
        have hsome : l[i]? = some b := getElem?_of_drop_cons hdrop
        cases fuel with
        | zero => omega
        | succ f =>
            have hf : rest.length < f := by
              simp only [List.length_cons] at hfuel
              omega
            rw [hskip]
            simp only [Nat.add_zero]
            rw [show traverseAux (f + 1) ⟨⟨l⟩, i⟩ =
                b :: traverseAux f (⟨⟨l⟩, i⟩ : RealBoxConstIterator).inc from by
              simp [traverseAux, RealBoxConstIterator.deref, hsome]]
            rw [inc_eq, hdrop1, ih l (i + 1) f hdrop1 hf]
            simp [List.filter_cons, hb]

/-- From any position at or past the end, every number of advances
leaves the iterator invalid. -/
lemma advanceN_invalid (l : List Box) (n : Nat) :
    ∀ p : Nat, l.length ≤ p →
      (advanceN n ⟨⟨l⟩, p⟩).isValid = false := by
  induction n with
  | zero =>
      intro p hp
      simp [advanceN, RealBoxConstIterator.isValid]
      omega
  | succ k ih =>
      intro p hp
      show (advanceN k (⟨⟨l⟩, p⟩ : RealBoxConstIterator).inc).isValid = false
      rw [inc_eq]
      exact ih _ (by omega)

/-- Workhorse for validity: from a normalised position over the
remaining suffix `m`, the iterator is valid after `n` advances exactly
when `n` is below the number of non-periodic entries of `m`. -/
lemma advanceN_isValid (m : List Box) :
    ∀ (l : List Box) (i : Nat), l.drop i = m → ∀ n,
      (advanceN n ⟨⟨l⟩, i + skipPeriodicCount m⟩).isValid =
        decide (n < (m.filter (fun b => !b.isPeriodicImage)).length) := by
  induction m with
  | nil =>
      intro l i hdrop n
      have hlen : l.length ≤ i := List.drop_eq_nil_iff.mp hdrop
      rw [advanceN_invalid l n (i + skipPeriodicCount [])
        (by simp [skipPeriodicCount]; omega)]
      simp
  | cons b rest ih =>
      intro l i hdrop n
      have hdrop1 : l.drop (i + 1) = rest := drop_succ_of_drop_cons hdrop
      by_cases hb : b.isPeriodicImage
      · have hskip :
            skipPeriodicCount (b :: rest) = skipPeriodicCount rest + 1 := by
          simp [skipPeriodicCount, hb]
        have harith :
            i + (skipPeriodicCount rest + 1) =
              (i + 1) + skipPeriodicCount rest := by omega
        rw [hskip, harith, ih l (i + 1) hdrop1 n]
        simp [List.filter_cons, hb]
      · have hskip : skipPeriodicCount (b :: rest) = 0 := by
          simp [skipPeriodicCount, hb]
        have hi : i < l.length := lt_length_of_drop_cons hdrop
        rw [hskip]
        cases n with
        | zero =>
            simp [advanceN, RealBoxConstIterator.isValid,
              List.filter_cons, hb]
            omega
        | succ k =>
            show (advanceN k
              (⟨⟨l⟩, i + 0⟩ : RealBoxConstIterator).inc).isValid = _
            rw [inc_eq]
            simp only [Nat.add_zero] at *
            rw [hdrop1, ih l (i + 1) hdrop1 k]
            simp [List.filter_cons, hb]

/-- Workhorse for the filter invariant: at a normalised position, a
successful dereference never yields a periodic image. -/
lemma deref_normal (m : List Box) :
    ∀ (l : List Box) (i : Nat), l.drop i = m → ∀ b,
      (⟨⟨l⟩, i + skipPeriodicCount m⟩ : RealBoxConstIterator).deref = some b →
      b.isPeriodicImage = false := by
  induction m with
  | nil =>
      intro l i hdrop b hderef
      have hnone : l[i]? = none := getElem?_of_drop_nil hdrop
      simp [RealBoxConstIterator.deref, skipPeriodicCount, hnone] at hderef
  | cons hd rest ih =>
      intro l i hdrop b hderef
      have hdrop1 : l.drop (i + 1) = rest := drop_succ_of_drop_cons hdrop
      by_cases hb : hd.isPeriodicImage
      · have hskip :
            skipPeriodicCount (hd :: rest) = skipPeriodicCount rest + 1 := by
          simp [skipPeriodicCount, hb]
        have harith :
            i + (skipPeriodicCount rest + 1) =
              (i + 1) + skipPeriodicCount rest := by omega
        rw [hskip, harith] at hderef
        exact ih l (i + 1) hdrop1 b hderef
      · have hskip : skipPeriodicCount (hd :: rest) = 0 := by
          simp [skipPeriodicCount, hb]
        have hsome : l[i]? = some hd := getElem?_of_drop_cons hdrop
        rw [hskip] at hderef
        simp [RealBoxConstIterator.deref, hsome] at hderef
        rw [← hderef]
        exact Bool.not_eq_true _ ▸ hb

/-- Workhorse for the exhausted state: from a normalised in-range
position, advancing once per remaining non-periodic entry lands the
underlying position exactly at the end of the enumeration. -/
lemma advanceN_exhaust (m : List Box) :
    ∀ (l : List Box) (i : Nat), l.drop i = m → i ≤ l.length →
      (advanceN ((m.filter (fun b => !b.isPeriodicImage)).length)
          ⟨⟨l⟩, i + skipPeriodicCount m⟩).d_ni = l.length := by
  induction m with
  | nil =>
      intro l i hdrop hle
      have hge : l.length ≤ i := List.drop_eq_nil_iff.mp hdrop
      simp [advanceN, skipPeriodicCount]
      omega
  | cons b rest ih =>
      intro l i hdrop hle
      have hdrop1 : l.drop (i + 1) = rest := drop_succ_of_drop_cons hdrop
      have hi : i < l.length := lt_length_of_drop_cons hdrop
      by_cases hb : b.isPeriodicImage
      · have hskip :
            skipPeriodicCount (b :: rest) = skipPeriodicCount rest + 1 := by
          simp [skipPeriodicCount, hb]
        have harith :
            i + (skipPeriodicCount rest + 1) =
              (i + 1) + skipPeriodicCount rest := by omega
        have hfilter : ((b :: rest).filter (fun x => !x.isPeriodicImage)) =
            rest.filter (fun x => !x.isPeriodicImage) := by
          simp [List.filter_cons, hb]
        rw [hskip, harith, hfilter]
        exact ih l (i + 1) hdrop1 hi
      · have hskip : skipPeriodicCount (b :: rest) = 0 := by
          simp [skipPeriodicCount, hb]
        have hfilter : ((b :: rest).filter (fun x => !x.isPeriodicImage)) =
            b :: rest.filter (fun x => !x.isPeriodicImage) := by
          simp [List.filter_cons, hb]
        rw [hskip, hfilter]
        show (advanceN (rest.filter (fun x => !x.isPeriodicImage)).length
          (⟨⟨l⟩, i + 0⟩ : RealBoxConstIterator).inc).d_ni = l.length
        rw [inc_eq]
        simp only [Nat.add_zero]
        rw [hdrop1]
        exact ih l (i + 1) hdrop1 hi

/-- All entries skipped by the leading skipping loop are periodic
images. -/
lemma take_skipPeriodicCount_all (l : List Box) :
    (l.take (skipPeriodicCount l)).all (fun b => b.isPeriodicImage) = true := by
  induction l with
  | nil => rfl
  | cons b rest ih =>
      by_cases hb : b.isPeriodicImage
      · simp [skipPeriodicCount, hb, List.take_succ_cons, ih]
      · simp [skipPeriodicCount, hb]

/-- If some non-periodic entry exists, the skipping loop stops before
the end. -/
lemma skipPeriodicCount_lt_of_any (l : List Box)
    (h : l.any (fun b => !b.isPeriodicImage) = true) :
    skipPeriodicCount l < l.length := by
  induction l with
  | nil => simp at h
  | cons b rest ih =>
      by_cases hb : b.isPeriodicImage
      · have hrest : rest.any (fun x => !x.isPeriodicImage) = true := by
          simp [List.any_cons, hb] at h
          simpa using h
        simp [skipPeriodicCount, hb]
        exact ih hrest
      · simp [skipPeriodicCount, hb]

/-- If every entry is a periodic image, the skipping loop runs to the
end. -/
lemma skipPeriodicCount_eq_of_all (l : List Box)
    (h : l.all (fun b => b.isPeriodicImage) = true) :
    skipPeriodicCount l = l.length := by
  induction l with
  | nil => rfl
  | cons b rest ih =>
      rw [List.all_cons, Bool.and_eq_true] at h
      simp [skipPeriodicCount, h.1, ih h.2]

/-- C1: once `detachMyBoxLevel` has been called on a handle,
`isAttached()` returns `false` and no subsequent sequence of operations
on the handle ever makes `isAttached()` return `true` again; detachment
is monotonic and terminal for that handle instance. -/
theorem C1_detach_terminal (h : BoxLevelHandle) (ops : List HandleOp) :
    (h.detachMyBoxLevel).isAttached = false ∧
    (applyOps ops h.detachMyBoxLevel).isAttached = false := by
  constructor
  · rfl
  · have hd : h.detachMyBoxLevel = (⟨none⟩ : BoxLevelHandle) := rfl
    rw [hd, applyOps_detached]
    rfl

/-- C2: on every handle reachable from construction, `getBoxLevel` in
the detached state takes the fatal contract-violation path (modelled by
`Except.error`), never a silent stale read; in the attached state it
returns the `BoxLevel` the handle was created attached to. -/
theorem C2_getBoxLevel_contract (b : BoxLevel) (ops : List HandleOp) :
    ((applyOps ops (BoxLevelHandle.mkAttached b)).isAttached = false →
      (applyOps ops (BoxLevelHandle.mkAttached b)).getBoxLevel =
        Except.error ()) ∧
    ((applyOps ops (BoxLevelHandle.mkAttached b)).isAttached = true →
      (applyOps ops (BoxLevelHandle.mkAttached b)).getBoxLevel =
        Except.ok b) := by
  rcases applyOps_mkAttached b ops with hcase | hcase <;> rw [hcase]
  · exact ⟨fun hc => by simp [BoxLevelHandle.isAttached] at hc, fun _ => rfl⟩
  · exact ⟨fun _ => rfl, fun hc => by simp [BoxLevelHandle.isAttached] at hc⟩

/-- C2 witness: at `b = 7` with the operation sequences `[]` (still
attached) and `[detach]` (detached), the two contract branches hold. -/
theorem C2_getBoxLevel_contract_witness :
    (applyOps [] (BoxLevelHandle.mkAttached 7)).getBoxLevel =
      Except.ok 7 ∧
    (applyOps [HandleOp.detach]
        (BoxLevelHandle.mkAttached 7)).getBoxLevel = Except.error () :=
  ⟨(C2_getBoxLevel_contract 7 []).2 (by decide),
   (C2_getBoxLevel_contract 7 [HandleOp.detach]).1 (by decide)⟩

/-- C3: the private constructor (the only construction path) yields a
new handle with `isAttached() == true` and the back-reference
`d_box_level` set to the given `BoxLevel`. -/
theorem C3_construction_attached (b : BoxLevel) :
    (BoxLevelHandle.mkAttached b).isAttached = true ∧
    (BoxLevelHandle.mkAttached b).d_box_level = some b :=
  ⟨rfl, rfl⟩

/-- C4: `detachMyBoxLevel` on an already-detached handle is a no-op
(the state is unchanged), detaching is idempotent, and after any detach
call `isAttached() == false`. -/
theorem C4_detach_idempotent (h : BoxLevelHandle) :
    (h.isAttached = false → h.detachMyBoxLevel = h) ∧
    h.detachMyBoxLevel.detachMyBoxLevel = h.detachMyBoxLevel ∧
    h.detachMyBoxLevel.isAttached = false := by
  refine ⟨fun hdet => ?_, rfl, rfl⟩
  cases h with
  | mk lvl =>
      cases lvl with
      | none => rfl
      | some b => simp [BoxLevelHandle.isAttached] at hdet

/-- C4 witness: applied to the detached handle, whose detach is then a
no-op. -/
theorem C4_detach_idempotent_witness :
    (⟨none⟩ : BoxLevelHandle).detachMyBoxLevel = ⟨none⟩ :=
  (C4_detach_idempotent ⟨none⟩).1 (by decide)

/-- C5: the destructor's state effect detaches a still-attached handle
first (so no attached state outlives the handle object), and performs
no further detachment on an already-detached handle. -/
theorem C5_destructor_detaches (h : BoxLevelHandle) :
    (h.destructorDetach).isAttached = false ∧
    (h.isAttached = true → h.destructorDetach = h.detachMyBoxLevel) ∧
    (h.isAttached = false → h.destructorDetach = h) := by
  refine ⟨?_, fun hatt => ?_, fun hdet => ?_⟩
  · cases h with
    | mk lvl =>
        cases lvl with
        | none => rfl
        | some b => rfl
  · simp [BoxLevelHandle.destructorDetach, hatt]
  · simp [BoxLevelHandle.destructorDetach, hdet]

/-- C5 witness: at the attached handle on `BoxLevel` `3` the destructor
detaches, and at the detached handle it is a no-op. -/
theorem C5_destructor_detaches_witness :
    (BoxLevelHandle.mkAttached 3).destructorDetach =
      (BoxLevelHandle.mkAttached 3).detachMyBoxLevel ∧
    (⟨none⟩ : BoxLevelHandle).destructorDetach = ⟨none⟩ :=
  ⟨(C5_destructor_detaches (BoxLevelHandle.mkAttached 3)).2.1 (by decide),
   (C5_destructor_detaches ⟨none⟩).2.2 (by decide)⟩

/-- C6: `isAttached` is a pure, total query: as an operation it leaves
the handle state unchanged in every state, it never takes an error
path (it always returns a `Bool`), and it reports exactly whether the
back-reference is present. -/
theorem C6_isAttached_pure (h : BoxLevelHandle) :
    applyOp HandleOp.queryIsAttached h = h ∧
    (h.isAttached = true ↔ h.d_box_level ≠ none) := by
  refine ⟨rfl, ?_⟩
  cases h with
  | mk lvl =>
      cases lvl with
      | none => simp [BoxLevelHandle.isAttached]
      | some b => simp [BoxLevelHandle.isAttached]

/-- Increments commute to the back of an advance sequence. -/
lemma advanceN_succ (n : Nat) :
    ∀ it : RealBoxConstIterator, advanceN (n + 1) it = (advanceN n it).inc := by
  induction n with
  | zero => intro it; rfl
  | succ k ih =>
      intro it
      show advanceN (k + 1) it.inc = (advanceN (k + 1) it).inc
      exact ih it.inc

/-- Every state reachable by advancing a freshly constructed iterator
sits at a position normalised by the skipping loop. -/
lemma advanceN_construct_normal (c : BoxContainer) (n : Nat) :
    ∃ i, advanceN n (RealBoxConstIterator.construct c) =
      ⟨c, i + skipPeriodicCount (c.boxes.drop i)⟩ := by
  induction n with
  | zero =>
      refine ⟨0, ?_⟩
      rw [construct_eq]
      simp [advanceN]
  | succ k ih =>
      obtain ⟨i, hi⟩ := ih
      refine ⟨i + skipPeriodicCount (c.boxes.drop i) + 1, ?_⟩
      rw [advanceN_succ, hi, inc_eq]

/-- C7: constructing a `RealBoxConstIterator` positions the cursor on
the first non-periodic-image entry of the container's enumeration
(everything before the cursor is a periodic image, and the cursor's
entry, when dereferenceable, is not), or in the exhausted state if no
such entry exists: for a container whose entries are all periodic
images (or empty), `isValid()` is `false` immediately at
construction. -/
theorem C7_construct_first_real (c : BoxContainer) :
    ((c.boxes.take (RealBoxConstIterator.construct c).d_ni).all
        (fun b => b.isPeriodicImage) = true) ∧
    (∀ b, (RealBoxConstIterator.construct c).deref = some b →
        b.isPeriodicImage = false) ∧
    (c.boxes.any (fun b => !b.isPeriodicImage) = true →
        (RealBoxConstIterator.construct c).isValid = true) ∧
    (c.boxes.all (fun b => b.isPeriodicImage) = true →
        (RealBoxConstIterator.construct c).isValid = false) := by
  refine ⟨?_, ?_, ?_, ?_⟩
  · rw [construct_eq]
    simpa using take_skipPeriodicCount_all c.boxes
  · intro b hb
    rw [construct_eq] at hb
    exact deref_normal c.boxes c.boxes 0 (List.drop_zero c.boxes) b hb
  · intro hany
    rw [construct_eq]
    simp only [RealBoxConstIterator.isValid, Nat.zero_add,
      decide_eq_true_eq]
    exact skipPeriodicCount_lt_of_any c.boxes hany
  · intro hall
    rw [construct_eq]
    have h := skipPeriodicCount_eq_of_all c.boxes hall
    simp [RealBoxConstIterator.isValid, h]

/-- C7 witness: over `[derived, derived]` the fresh iterator is
immediately invalid; over `[derived, real]` it is valid and
dereferences the real entry. -/
theorem C7_construct_first_real_witness :
    (RealBoxConstIterator.construct ⟨[⟨0, true⟩, ⟨1, true⟩]⟩).isValid =
      false ∧
    (RealBoxConstIterator.construct ⟨[⟨0, true⟩, ⟨1, false⟩]⟩).isValid =
      true ∧
    (⟨1, false⟩ : Box).isPeriodicImage = false :=
  ⟨(C7_construct_first_real ⟨[⟨0, true⟩, ⟨1, true⟩]⟩).2.2.2 (by decide),
   (C7_construct_first_real ⟨[⟨0, true⟩, ⟨1, false⟩]⟩).2.2.1 (by decide),
   (C7_construct_first_real ⟨[⟨0, true⟩, ⟨1, false⟩]⟩).2.1 ⟨1, false⟩
     (by decide)⟩

/-- C8: a full traversal (construct, then advance while valid)
dereferences exactly the non-periodic-image entries of the container in
their original relative order; `isValid()` is `true` after `n` advances
exactly while `n` is below the number of such entries (so it becomes
`false` exactly after the last one); and at no reachable state does a
successful dereference yield a periodic image. -/
theorem C8_traversal_filter (c : BoxContainer) :
    RealBoxConstIterator.traverse c =
      c.boxes.filter (fun b => !b.isPeriodicImage) ∧
    (∀ n, (advanceN n (RealBoxConstIterator.construct c)).isValid =
        decide (n <
          (c.boxes.filter (fun b => !b.isPeriodicImage)).length)) ∧
    (∀ n b,
      (advanceN n (RealBoxConstIterator.construct c)).deref = some b →
        b.isPeriodicImage = false) := by
  refine ⟨?_, ?_, ?_⟩
  · rw [RealBoxConstIterator.traverse, construct_eq]
    exact traverseAux_filter c.boxes c.boxes 0 (c.boxes.length + 1)
      (List.drop_zero c.boxes) (by omega)
  · intro n
    rw [construct_eq]
    exact advanceN_isValid c.boxes c.boxes 0 (List.drop_zero c.boxes) n
  · intro n b hderef
    obtain ⟨i, hi⟩ := advanceN_construct_normal c n
    rw [hi] at hderef
    exact deref_normal (c.boxes.drop i) c.boxes i rfl b hderef

/-- C8 witness: the spec's P5 example `[a(real), b(derived), c(real),
d(derived), e(real)]` traverses to `[a, c, e]`, and the entry
dereferenced after one advance is not a periodic image. -/
theorem C8_traversal_filter_witness :
    RealBoxConstIterator.traverse
        ⟨[⟨0, false⟩, ⟨1, true⟩, ⟨2, false⟩, ⟨3, true⟩, ⟨4, false⟩]⟩ =
      [⟨0, false⟩, ⟨2, false⟩, ⟨4, false⟩] ∧
    (⟨2, false⟩ : Box).isPeriodicImage = false :=
  ⟨(C8_traversal_filter
      ⟨[⟨0, false⟩, ⟨1, true⟩, ⟨2, false⟩, ⟨3, true⟩, ⟨4, false⟩]⟩).1.trans
      (by decide),
   (C8_traversal_filter
      ⟨[⟨0, false⟩, ⟨1, true⟩, ⟨2, false⟩, ⟨3, true⟩, ⟨4, false⟩]⟩).2.2
     1 ⟨2, false⟩ (by decide)⟩

/-- C9: `operator == ` returns `true` iff the two cursors reference the
same container and the same underlying position; consequently every
iterator equals itself, two iterators over the same container are equal
after the same number of advances, and two iterators that both reached
the end position of the same container compare equal. -/
theorem C9_eqOp_characterization (a r : RealBoxConstIterator) :
    (a.eqOp r = true ↔
      (a.d_mapped_boxes = r.d_mapped_boxes ∧ a.d_ni = r.d_ni)) ∧
    a.eqOp a = true ∧
    (∀ (c : BoxContainer) (n : Nat),
      (advanceN n (RealBoxConstIterator.construct c)).eqOp
        (advanceN n (RealBoxConstIterator.construct c)) = true) ∧
    (∀ (c : BoxContainer) (n m : Nat),
      (advanceN n (RealBoxConstIterator.construct c)).d_ni =
        c.boxes.length →
      (advanceN m (RealBoxConstIterator.construct c)).d_ni =
        c.boxes.length →
      (advanceN n (RealBoxConstIterator.construct c)).eqOp
        (advanceN m (RealBoxConstIterator.construct c)) = true) := by
  refine ⟨?_, ?_, ?_, ?_⟩
  · simp [RealBoxConstIterator.eqOp]
  · simp [RealBoxConstIterator.eqOp]
  · intro c n
    simp [RealBoxConstIterator.eqOp]
  · intro c n m hn hm
    simp only [RealBoxConstIterator.eqOp, Bool.and_eq_true,
      decide_eq_true_eq]
    constructor
    · rw [advanceN_container, advanceN_container]
    · rw [hn, hm]

/-- C9 witness: over the single-entry all-derived container, the fresh
iterator is already at the end position, and two such end states
compare equal. -/
theorem C9_eqOp_characterization_witness :
    (advanceN 0 (RealBoxConstIterator.construct ⟨[⟨0, true⟩]⟩)).eqOp
      (advanceN 0 (RealBoxConstIterator.construct ⟨[⟨0, true⟩]⟩)) = true :=
  (C9_eqOp_characterization
      (RealBoxConstIterator.construct ⟨[⟨0, true⟩]⟩)
      (RealBoxConstIterator.construct ⟨[⟨0, true⟩]⟩)).2.2.2
    ⟨[⟨0, true⟩]⟩ 0 0 (by decide) (by decide)

/-- C10: the iterator's assignment `operator = ` is public: after
`a = r`, `a` holds `r`'s container reference and underlying position,
so it compares equal to `r` (and `r`, passed by value here, is
unchanged by construction). -/
theorem C10_iterator_assignable (a r : RealBoxConstIterator) :
    a.assign r = r ∧ (a.assign r).eqOp r = true := by
  constructor
  · rfl
  · simp [RealBoxConstIterator.assign, RealBoxConstIterator.eqOp]

end hier
end SAMRAI
